import Mathlib

/-!
Shallow embedding of the V2T media-transcription pipeline (src/v2t.py).

Conventions of the embedding:
* Python floats are modelled as exact rationals (`ℚ`); the float literal
  `0.2` becomes `1/5`, `1000.0` becomes `1000`.
* Python strings are modelled as `String` / `List Char`; `str.strip()`
  strips the ASCII whitespace characters (the tag formats produced by the
  engines never contain the extra Unicode space characters Python would
  also strip, and every result below is uniform in the choice of the
  whitespace set).
* The regex character class `\d` is modelled as the ASCII digits `0`-`9`
  and `[a-zA-Z]` / `[A-Z]` as ASCII letters, matching the characters the
  engine tag formats use.
* Exceptions raised by external backends are modelled with `Except`.
-/

namespace V2T

/-!
Arithmetic on `ℚ`.  The `+`, `*`, `/` and `max` of the standard library
are used in the statements of the theorems below, but the standard
`Rat.add`/`Rat.mul`/`Rat.inv` are irreducible and therefore cannot be
evaluated on concrete inputs by the kernel.  The executable definitions
below therefore use the following equivalent reducible forms, and the
`_eq` bridge lemmas relate them to the standard operations.
-/

/-- Reducible rational addition, equal to `a + b`. -/
def ratAdd (a b : ℚ) : ℚ := mkRat (a.num * b.den + b.num * a.den) (a.den * b.den)

/-- Reducible rational multiplication, equal to `a * b`. -/
def ratMul (a b : ℚ) : ℚ := mkRat (a.num * b.num) (a.den * b.den)

/-- Reducible rational division, equal to `a / b`. -/
def ratDiv (a b : ℚ) : ℚ := ratMul a (Rat.divInt b.den b.num)

/-- Python `max(a, b)` on two numbers (ties keep the first argument, which
has the same value); equal to `max a b`. -/
def pyMax (a b : ℚ) : ℚ := if a < b then b else a

/-- Millisecond-to-second conversion `q / 1000.0` used by the Paraformer
parser. -/
def msToSec (q : ℚ) : ℚ := ratDiv q 1000

theorem ratAdd_eq (a b : ℚ) : ratAdd a b = a + b := (Rat.add_def' a b).symm

theorem ratMul_eq (a b : ℚ) : ratMul a b = a * b := by
  rw [ratMul, Rat.mul_def, Rat.normalize_eq_mkRat]

theorem ratDiv_eq (a b : ℚ) : ratDiv a b = a / b := by
  rw [ratDiv, ratMul_eq, Rat.div_def, Rat.inv_def]

theorem msToSec_eq (q : ℚ) : msToSec q = q / 1000 := ratDiv_eq q 1000

theorem pyMax_eq (a b : ℚ) : pyMax a b = max a b := by
  rw [pyMax, max_def]
  rcases lt_trichotomy a b with h | h | h
  · simp [h, le_of_lt h]
  · simp [h]
  · simp [not_lt_of_lt h, not_le_of_lt h]

/-- ASCII whitespace characters removed by Python `str.strip()`. -/
def isPySpace (c : Char) : Bool :=
  c = ' ' || c = '\t' || c = '\n' || c = '\r' || c = '\x0b' || c = '\x0c'

/-- Python `str.strip()` on a character list: drop leading and trailing
whitespace. -/
def pyStrip (l : List Char) : List Char :=
  ((l.dropWhile isPySpace).reverse.dropWhile isPySpace).reverse

/-- Python `str.strip()` on a `String`. -/
def pyStripStr (s : String) : String :=
  String.mk (pyStrip s.data)

/-- Python `str.lower()`: lower-case every character (equivalent to
`String.toLower`, stated over the character list so that the kernel can
evaluate it). -/
def pyLower (s : String) : String := String.mk (s.data.map Char.toLower)

def isAsciiDigit (c : Char) : Bool := '0' ≤ c && c ≤ '9'

def isAsciiAlpha (c : Char) : Bool :=
  ('a' ≤ c && c ≤ 'z') || ('A' ≤ c && c ≤ 'Z')

def isAsciiUpper (c : Char) : Bool := 'A' ≤ c && c ≤ 'Z'

/-- Numeric value of a string of ASCII digits. -/
def digitsToNat (l : List Char) : Nat :=
  l.foldl (fun n c => 10 * n + (c.toNat - '0'.toNat)) 0

/-- Python `float()` restricted to the `digits.digits` shapes that the
timestamp tags of this pipeline produce; every other input is rejected
(`ValueError` becomes `none`), as `float()` rejects the non-numeric
strings reachable here. -/
def pyFloat? (l : List Char) : Option ℚ :=
  let d1 := l.takeWhile isAsciiDigit
  let r1 := l.dropWhile isAsciiDigit
  if d1 = [] then none
  else
    match r1 with
    | '.' :: r2 =>
      let d2 := r2.takeWhile isAsciiDigit
      let r3 := r2.dropWhile isAsciiDigit
      if d2 = [] ∨ r3 ≠ [] then none
      else
        some (ratAdd (digitsToNat d1 : ℚ)
          (Rat.divInt (digitsToNat d2) ((10 ^ d2.length : Nat) : Int)))
    | _ => none

/-- The sentence-final punctuation class `[.!?。！？]` of the source. -/
def sentenceEndChars : List Char := ['.', '!', '?', '。', '！', '？']

/-- Models Python `re.search(r"[.!?。！？]$", s) is not None`: the `$`
anchor matches at the end of the string and also just before one trailing
newline. -/
def reSearchSentenceEnd (l : List Char) : Bool :=
  match l.reverse with
  | [] => false
  | c :: rest =>
    if sentenceEndChars.contains c then true
    else if c = '\n' then
      match rest with
      | [] => false
      | c2 :: _ => sentenceEndChars.contains c2
    else false

/-- Match the regex `<\|[a-zA-Z]+\|>` (resp. `<\|[A-Z]+\|>`) as a prefix
of the character list, returning the remainder after the match.  The
character class is given by `letter`. -/
def matchLetterTag (letter : Char → Bool) : List Char → Option (List Char)
  | '<' :: '|' :: rest =>
    let ls := rest.takeWhile letter
    let r1 := rest.dropWhile letter
    if ls = [] then none
    else
      match r1 with
      | '|' :: '>' :: r2 => some r2
      | _ => none
  | _ => none

/-- One left-to-right pass of `re.sub(pattern, "", text)` for a letter-tag
pattern: every non-overlapping occurrence is removed, scanning resumes
after each match.  The fuel starts at the length of the list, which the
scan never exhausts (each step consumes at least one character). -/
def removeLetterTagsGo (letter : Char → Bool) : Nat → List Char → List Char
  | 0, l => l
  | _ + 1, [] => []
  | fuel + 1, c :: cs =>
    match matchLetterTag letter (c :: cs) with
    | some rest => removeLetterTagsGo letter fuel rest
    | none => c :: removeLetterTagsGo letter fuel cs

/-- `re.sub(r"<\|[a-zA-Z]+\|>", "", text)` (source line 189). -/
def removeAlphaTags (l : List Char) : List Char :=
  removeLetterTagsGo isAsciiAlpha l.length l

/-- `re.sub(r"<\|[A-Z]+\|>", "", clean_text)` (source line 190). -/
def removeUpperTags (l : List Char) : List Char :=
  removeLetterTagsGo isAsciiUpper l.length l

/-- Match the timestamp-tag regex `<\|\d+\.\d+\|>` as a prefix, returning
the matched tag together with the remainder. -/
def matchTimeTag : List Char → Option (List Char × List Char)
  | '<' :: '|' :: rest =>
    let d1 := rest.takeWhile isAsciiDigit
    let r1 := rest.dropWhile isAsciiDigit
    if d1 = [] then none
    else
      match r1 with
      | '.' :: r2 =>
        let d2 := r2.takeWhile isAsciiDigit
        let r3 := r2.dropWhile isAsciiDigit
        if d2 = [] then none
        else
          match r3 with
          | '|' :: '>' :: r4 =>
            some ('<' :: '|' :: (d1 ++ '.' :: (d2 ++ ['|', '>'])), r4)
          | _ => none
      | _ => none
  | _ => none

/-- Worker for `re.split(r"(<\|\d+\.\d+\|>)", text)`: pieces of text
between matches, with each matched tag kept as its own piece (the regex
group is captured), including empty pieces, exactly as `re.split`
returns them.  Fuel as in `removeLetterTagsGo`. -/
def splitTimeTagsGo : Nat → List Char → List Char → List (List Char)
  | 0, acc, l => [acc.reverse ++ l]
  | _ + 1, acc, [] => [acc.reverse]
  | fuel + 1, acc, c :: cs =>
    match matchTimeTag (c :: cs) with
    | some (tag, rest) => acc.reverse :: tag :: splitTimeTagsGo fuel [] rest
    | none => splitTimeTagsGo fuel (c :: acc) cs

/-- `re.split(r"(<\|\d+\.\d+\|>)", clean_text)` (source line 193). -/
def splitTimeTags (l : List Char) : List (List Char) :=
  splitTimeTagsGo l.length [] l

/-- Segment: atomic time-stamped text unit (source lines 27-31). -/
structure Segment where
  start : ℚ
  «end» : ℚ
  text : String
deriving DecidableEq

/-- The token-collection loop of `_parse_sensevoice_output` (source lines
195-214): strip each piece, skip empty pieces, let timestamp tags update
`current_time` (a parse failure is silently ignored), and anchor every
text piece to the most recent timestamp. -/
def tokenLoop : List (List Char) → ℚ → List (ℚ × String)
  | [], _ => []
  | part :: rest, current_time =>
    let p := pyStrip part
    if p = [] then tokenLoop rest current_time
    else if (matchTimeTag p).isSome then
      match pyFloat? (((p.drop 2).dropLast).dropLast) with
      | some t_val => tokenLoop rest t_val
      | none => tokenLoop rest current_time
    else (current_time, String.mk p) :: tokenLoop rest current_time

/-- Raw `(time, text)` token stream extracted from SenseVoice tagged text
(source lines 189-214). -/
def senseTokens (text : String) : List (ℚ × String) :=
  let clean := removeUpperTags (removeAlphaTags text.data)
  tokenLoop (splitTimeTags clean) 0

/-- The split decision of the segment-merging loop (source lines 227-239):
the just-appended token ends in sentence-final punctuation, or the
concatenated candidate text exceeds 80 characters. -/
def shouldSplit (current_seg_text : List String) (txt : String) : Bool :=
  reSearchSentenceEnd txt.data || decide (80 < (String.join current_seg_text).length)

/-- The token-merging loop of `_parse_sensevoice_output` (source lines
216-269).  `flushEnd` is `raw_tokens[-1][0] + 1.0`, the end time the
source gives the flushed trailing candidate; it is fixed over the whole
loop because `raw_tokens` does not change. -/
def mergeLoop (flushEnd : ℚ) :
    List (ℚ × String) → List String → ℚ → List Segment
  | [], current_seg_text, current_seg_start =>
    if current_seg_text.isEmpty then []
    else [⟨current_seg_start, flushEnd, String.join current_seg_text⟩]
  | (t, txt) :: rest, current_seg_text, current_seg_start =>
    let acc := current_seg_text ++ [txt]
    if shouldSplit acc txt then
      match rest with
      | (t2, _) :: _ =>
        ⟨current_seg_start, t2, String.join acc⟩ :: mergeLoop flushEnd rest [] t2
      | [] =>
        [⟨current_seg_start,
          ratAdd t (pyMax 1 (ratMul (txt.length : ℚ) (Rat.divInt 1 5))),
          String.join acc⟩]
    else
      mergeLoop flushEnd rest acc current_seg_start

/-- Merge raw tokens into segments (source lines 216-269): the loop starts
with `current_seg_start = raw_tokens[0][0]` and an empty candidate; an
empty token list yields no segments. -/
def mergeTokens : List (ℚ × String) → List Segment
  | [] => []
  | tok :: rest =>
    mergeLoop (ratAdd ((tok :: rest).getLast (List.cons_ne_nil tok rest)).1 1)
      (tok :: rest) [] tok.1

/-- `FunASREngine._parse_sensevoice_output` (source lines 175-271). -/
def parse_sensevoice_output (text : String) : List Segment :=
  mergeTokens (senseTokens text)

/-- One entry of `result_item["sentence_info"]`: a sentence-level span
with millisecond start/end times.  Missing dictionary keys default to `0`
(`sent.get("start", 0)`) and `""` (`sent.get("text", "")`), which the
total fields model. -/
structure SentenceInfo where
  start : ℚ
  «end» : ℚ
  text : String
deriving DecidableEq

/-- The Paraformer backend result dictionary: full text, per-character
`[start_ms, end_ms]` timestamp pairs, and optional sentence spans; each
field models `result_item.get(key, default)`. -/
structure ParaformerResult where
  text : String
  timestamp : List (ℚ × ℚ)
  sentence_info : List SentenceInfo
deriving DecidableEq

/-- The character-grouping loop of `_parse_paraformer_output` (source
lines 299-335): group characters until sentence-final punctuation or more
than 60 accumulated characters, tracking the group's first start time and
last end time (milliseconds divided by 1000). -/
def paraGroup :
    List (Char × ℚ × ℚ) → List Char → Option ℚ → Option ℚ → List Segment
  | [], current_text, current_start, current_end' =>
    -- flush remaining (source lines 327-335); `current_start or 0.0`
    if current_text.isEmpty then []
    else [⟨current_start.getD 0, current_end'.getD 0, String.mk current_text⟩]
  | (word, ts) :: rest, current_text, current_start, _current_end =>
    let current_start' :=
      match current_start with
      | none => some (msToSec ts.1)
      | some v => some v
    let current_text' := current_text ++ [word]
    let current_end' := some (msToSec ts.2)
    if reSearchSentenceEnd [word] || decide (60 < current_text'.length) then
      ⟨current_start'.getD 0, current_end'.getD 0, String.mk current_text'⟩ ::
        paraGroup rest [] none none
    else
      paraGroup rest current_text' current_start' current_end'

/-- `FunASREngine._parse_paraformer_output` (source lines 273-343). -/
def parse_paraformer_output (result_item : ParaformerResult) : List Segment :=
  let text := result_item.text
  let timestamps := result_item.timestamp
  let sentences := result_item.sentence_info
  if ¬ sentences.isEmpty then
    -- sentence-level spans are preferred when present (lines 285-291)
    sentences.filterMap fun sent =>
      if sent.text ≠ "" then
        some ⟨msToSec sent.start, msToSec sent.«end», sent.text⟩
      else none
  else if ¬ timestamps.isEmpty ∧ text ≠ "" then
    let words := text.data
    if timestamps.length = words.length then
      paraGroup (words.zip timestamps) [] none none
    else
      -- parallel-array length mismatch (lines 336-338)
      [⟨0, 0, text⟩]
  else if text ≠ "" then
    -- no timestamps, just text (lines 339-341)
    [⟨0, 0, text⟩]
  else []

/-- A segment object returned by the faster-whisper backend. -/
structure WhisperBackendSegment where
  start : ℚ
  «end» : ℚ
  text : String
deriving DecidableEq

/-- `WhisperEngine.transcribe` (source lines 65-111) as a function of the
outcome of the backend call `self.model.transcribe(...)`: each backend
segment is mapped one-to-one to a `Segment`.  There is no exception
handler in this method, so a backend error propagates to the caller. -/
def whisperTranscribe (backend : Except String (List WhisperBackendSegment)) :
    Except String (List Segment) :=
  backend.map fun segs => segs.map fun s => ⟨s.start, s.«end», s.text⟩

/-- `FunASREngine.transcribe` (source lines 345-410) as a function of the
outcome of the backend call `self.model.generate(...)`: an inference
exception is caught and yields `[]` (lines 391-395); otherwise each
result item is parsed with the engine-specific parser and the segment
lists are concatenated (lines 397-410).  For the SenseVoice path the
item's `text` field is the tagged text (`item.get("text", "")`). -/
def funasrTranscribe (is_paraformer : Bool)
    (backend : Except String (List ParaformerResult)) : List Segment :=
  match backend with
  | .error _ => []
  | .ok res =>
    (res.map fun item =>
      if is_paraformer then parse_paraformer_output item
      else parse_sensevoice_output item.text).flatten

/-- A filesystem path, modelled as directory, stem and suffix, as used by
`pathlib.Path` (POSIX semantics: comparisons are case-sensitive). -/
structure PyPath where
  dir : String
  stem : String
  suffix : String
deriving DecidableEq

/-- `Path.with_suffix`: replace the suffix, keep directory and stem. -/
def PyPath.withSuffix (p : PyPath) (s : String) : PyPath :=
  { p with suffix := s }

/-- `str(path)`. -/
def PyPath.toStr (p : PyPath) : String := p.dir ++ "/" ++ p.stem ++ p.suffix

/-- Outcome of one invocation of the external ffmpeg binary:
`subprocess.run` either raises or returns an exit code, and the expected
output file either exists afterwards or not. -/
inductive FFmpegRun where
  | raises
  | exits (returncode : Int) (outputExists : Bool)
deriving DecidableEq

/-- The ffmpeg command line built by `_extract_audio_ffmpeg` (source lines
637-647): strip video (`-vn`), mp3 codec, 192k bitrate, resample to 16
kHz (`-ar 16000`), mono (`-ac 1`), overwrite. -/
def ffmpegAudioCmd (input output : String) : List String :=
  ["ffmpeg", "-i", input, "-vn", "-acodec", "libmp3lame", "-ab", "192k",
   "-ar", "16000", "-ac", "1", "-y", output]

/-- Result of `V2T._extract_audio_ffmpeg`: the returned path, the ffmpeg
command that was invoked (if any), and whether the original downloaded
file was removed. -/
structure ExtractResult where
  result : Option PyPath
  invokedCmd : Option (List String)
  removedInput : Bool
deriving DecidableEq

/-- `V2T._extract_audio_ffmpeg` (source lines 623-667): target path is the
input with an `.mp3` suffix; if the input already is that target mp3 the
function returns it unchanged without running ffmpeg; otherwise ffmpeg is
invoked, and on success the original file is removed. -/
def extract_audio_ffmpeg (input_path : PyPath) (run : FFmpegRun) : ExtractResult :=
  let output_path := input_path.withSuffix ".mp3"
  if pyLower input_path.suffix = ".mp3" ∧ input_path = output_path then
    ⟨some input_path, none, false⟩
  else
    let cmd := ffmpegAudioCmd input_path.toStr output_path.toStr
    match run with
    | .raises => ⟨none, some cmd, false⟩
    | .exits rc outputExists =>
      if rc ≠ 0 then ⟨none, some cmd, false⟩
      else if outputExists then
        ⟨some output_path, some cmd, decide (input_path ≠ output_path)⟩
      else ⟨none, some cmd, false⟩

/-- The yt-dlp format-preference string of `download_audio` (source line
688). -/
def downloadFormatString : String := "bestaudio/worstvideo*+bestaudio/worst"

/-- Split a format string on the `/` fallback separator. -/
def splitOnSlashGo : Nat → List Char → List Char → List (List Char)
  | 0, acc, l => [acc.reverse ++ l]
  | _ + 1, acc, [] => [acc.reverse]
  | fuel + 1, acc, c :: cs =>
    if c = '/' then acc.reverse :: splitOnSlashGo fuel [] cs
    else splitOnSlashGo fuel (c :: acc) cs

/-- The ordered list of format alternatives submitted to the downloader:
the `/`-separated pieces of the format string. -/
def formatAlternatives : List String :=
  (splitOnSlashGo downloadFormatString.data.length [] downloadFormatString.data).map
    String.mk

/-- The downloader collaborator's documented fallback semantics (spec §4.1
and §6, out-of-scope collaborator): the alternatives are attempted
strictly in order and the first one that yields a playable file is
chosen. -/
def selectFormat (playable : String → Bool) : Option String :=
  formatAlternatives.find? playable

/-- `SUPPORTED_VIDEO_FORMATS` (source line 22). -/
def SUPPORTED_VIDEO_FORMATS : List String := [".mp4", ".mkv", ".avi", ".mov"]

/-- `SUPPORTED_AUDIO_FORMATS` (source line 23). -/
def SUPPORTED_AUDIO_FORMATS : List String := [".mp3", ".wav", ".flac", ".m4a"]

/-- The temporary working directory `temp_audio` (source line 418). -/
def temp_dir : String := "temp_audio"

/-- `V2T.process_local_file` (source lines 547-621): a supported audio
file is used directly; a supported video file is extracted by ffmpeg into
`temp_audio/{stem}_extracted.mp3`; anything else fails.  Returns the audio
path (or `none` on failure) and the original filename stem. -/
def process_local_file (source_path : PyPath) (run : FFmpegRun) :
    Option PyPath × String :=
  let original_stem := source_path.stem
  let suffix := pyLower source_path.suffix
  if suffix ∈ [".mp3", ".wav", ".flac", ".m4a"] then
    (some source_path, original_stem)
  else if suffix ∈ SUPPORTED_VIDEO_FORMATS then
    let temp_audio_path : PyPath := ⟨temp_dir, original_stem ++ "_extracted", ".mp3"⟩
    match run with
    | .raises => (none, original_stem)
    | .exits rc outputExists =>
      if rc ≠ 0 then (none, original_stem)
      else if outputExists then (some temp_audio_path, original_stem)
      else (none, original_stem)
  else (none, original_stem)

/-- The files `V2T._run_internal` removes after transcribing one local
input (source lines 825-864): the extracted audio is removed only when it
is a temporary one (the source file's suffix is a supported video format)
and `keep_audio` is not set. -/
def localCleanupTargets (file_path : PyPath) (keep_audio : Bool)
    (run : FFmpegRun) : List PyPath :=
  match (process_local_file file_path run).1 with
  | none => []
  | some audio_path =>
    let is_temp_audio := pyLower file_path.suffix ∈ SUPPORTED_VIDEO_FORMATS
    if is_temp_audio ∧ keep_audio = false then [audio_path] else []

/-!
Helper lemmas.
-/

theorem mergeLoop_nil (fe : ℚ) (acc : List String) (st : ℚ) :
    mergeLoop fe [] acc st =
      if acc.isEmpty then [] else [⟨st, fe, String.join acc⟩] := rfl

theorem mergeLoop_split_mid (fe t t2 st : ℚ) (txt x2 : String)
    (rest : List (ℚ × String)) (acc : List String)
    (h : shouldSplit (acc ++ [txt]) txt = true) :
    mergeLoop fe ((t, txt) :: (t2, x2) :: rest) acc st =
      ⟨st, t2, String.join (acc ++ [txt])⟩ ::
        mergeLoop fe ((t2, x2) :: rest) [] t2 := by
  simp [mergeLoop, h]

theorem mergeLoop_split_last (fe t st : ℚ) (txt : String) (acc : List String)
    (h : shouldSplit (acc ++ [txt]) txt = true) :
    mergeLoop fe [(t, txt)] acc st =
      [⟨st, ratAdd t (pyMax 1 (ratMul (txt.length : ℚ) (Rat.divInt 1 5))),
        String.join (acc ++ [txt])⟩] := by
  simp [mergeLoop, h]

theorem mergeLoop_nosplit (fe t st : ℚ) (txt : String)
    (rest : List (ℚ × String)) (acc : List String)
    (h : shouldSplit (acc ++ [txt]) txt = false) :
    mergeLoop fe ((t, txt) :: rest) acc st =
      mergeLoop fe rest (acc ++ [txt]) st := by
  cases rest with
  | nil => simp [mergeLoop, h]
  | cons h2 t2 => simp [mergeLoop, h]

/-- A string containing at least one non-whitespace character. -/
def GoodStr (s : String) : Prop := ∃ c ∈ s.data, isPySpace c = false

theorem pyStrip_ne_nil {l : List Char} (h : ∃ c ∈ l, isPySpace c = false) :
    pyStrip l ≠ [] := by
  intro hnil
  have houter : ∀ x ∈ l.dropWhile isPySpace, isPySpace x = true := by
    intro x hx
    have hrev : ((l.dropWhile isPySpace).reverse.dropWhile isPySpace) = [] := by
      simpa [pyStrip, List.reverse_eq_nil_iff] using hnil
    have := List.dropWhile_eq_nil_iff.mp hrev
    exact this x (List.mem_reverse.mpr hx)
  rcases h with ⟨c, hc, hcf⟩
  by_cases hd : l.dropWhile isPySpace = []
  · have := List.dropWhile_eq_nil_iff.mp hd c hc
    simp [this] at hcf
  · have hhead := List.head_dropWhile_not isPySpace l hd
    have hmem := houter _ (List.head_mem hd)
    rw [hhead] at hmem
    exact Bool.false_ne_true hmem

theorem pyStrip_good {l : List Char} (h : pyStrip l ≠ []) :
    ∃ c ∈ pyStrip l, isPySpace c = false := by
  set inner := (l.dropWhile isPySpace).reverse.dropWhile isPySpace with hinner
  have hin : inner ≠ [] := by
    intro hnil
    refine h ?_
    simp [pyStrip, ← hinner, hnil]
  refine ⟨inner.head hin, ?_, ?_⟩
  · simp [pyStrip, ← hinner, List.mem_reverse]
  · exact List.head_dropWhile_not isPySpace ((l.dropWhile isPySpace).reverse) hin

theorem goodStr_pyStrip_ne {s : String} (h : GoodStr s) : pyStripStr s ≠ "" := by
  intro hs
  have : pyStrip s.data = [] := by
    have := congrArg String.data hs
    simpa [pyStripStr] using this
  exact pyStrip_ne_nil h this

theorem data_foldl_append (l : List String) (init : String) :
    (l.foldl (fun r s => r ++ s) init).data =
      init.data ++ (l.map String.data).flatten := by
  induction l generalizing init with
  | nil => simp
  | cons hd tl ih => simp [ih, List.append_assoc]

theorem data_join (l : List String) :
    (String.join l).data = (l.map String.data).flatten := by
  simpa [String.join] using data_foldl_append l ""

theorem goodStr_join {l : List String} {s : String} (hs : s ∈ l) (h : GoodStr s) :
    GoodStr (String.join l) := by
  rcases h with ⟨c, hc, hcf⟩
  refine ⟨c, ?_, hcf⟩
  rw [data_join]
  exact List.mem_flatten.mpr ⟨s.data, List.mem_map_of_mem String.data hs, hc⟩

theorem tokenLoop_good :
    ∀ (parts : List (List Char)) (cur : ℚ), ∀ tk ∈ tokenLoop parts cur,
      GoodStr tk.2 := by
  intro parts
  induction parts with
  | nil => intro cur tk htk; simp [tokenLoop] at htk
  | cons part rest ih =>
    intro cur tk htk
    rw [tokenLoop] at htk
    by_cases hp : pyStrip part = []
    · rw [if_pos hp] at htk
      exact ih cur tk htk
    · rw [if_neg hp] at htk
      by_cases hm : (matchTimeTag (pyStrip part)).isSome
      · rw [if_pos hm] at htk
        rcases hx : pyFloat? (((pyStrip part).drop 2).dropLast.dropLast) with _ | t
        · rw [hx] at htk; exact ih cur tk htk
        · rw [hx] at htk; exact ih t tk htk
      · rw [if_neg hm] at htk
        rcases List.mem_cons.mp htk with heq | hmem
        · subst heq
          exact pyStrip_good hp
        · exact ih cur tk hmem

theorem senseTokens_good (text : String) :
    ∀ tk ∈ senseTokens text, GoodStr tk.2 := by
  intro tk htk
  exact tokenLoop_good _ 0 tk htk

theorem mergeLoop_ne_nil (fe : ℚ) :
    ∀ (ts : List (ℚ × String)) (acc : List String) (st : ℚ),
      ts ≠ [] ∨ acc ≠ [] → mergeLoop fe ts acc st ≠ [] := by
  intro ts
  induction ts with
  | nil =>
    intro acc st h
    rcases h with h | h
    · exact absurd rfl h
    · cases acc with
      | nil => exact absurd rfl h
      | cons a as => simp [mergeLoop]
  | cons hd tl ih =>
    intro acc st _
    obtain ⟨t, txt⟩ := hd
    simp only [mergeLoop]
    by_cases hs : shouldSplit (acc ++ [txt]) txt = true
    · rw [if_pos hs]
      cases tl with
      | nil => simp
      | cons h2 t2 => obtain ⟨tt, xx⟩ := h2; simp
    · rw [if_neg hs]
      exact ih (acc ++ [txt]) st (Or.inr (by simp))

theorem mergeLoop_good (fe : ℚ) :
    ∀ (ts : List (ℚ × String)) (acc : List String) (st : ℚ),
      (∀ tk ∈ ts, GoodStr tk.2) → (∀ a ∈ acc, GoodStr a) →
      ∀ seg ∈ mergeLoop fe ts acc st, GoodStr seg.text := by
  intro ts
  induction ts with
  | nil =>
    intro acc st _ hacc seg hseg
    cases acc with
    | nil => simp [mergeLoop] at hseg
    | cons a as =>
      simp only [mergeLoop, List.isEmpty_cons, if_neg Bool.false_ne_true,
        List.mem_singleton] at hseg
      subst hseg
      exact goodStr_join (List.mem_cons_self a as) (hacc a (List.mem_cons_self a as))
  | cons hd tl ih =>
    intro acc st hts hacc seg hseg
    obtain ⟨t, txt⟩ := hd
    have htxt : GoodStr txt := hts (t, txt) (List.mem_cons_self _ _)
    have hacc' : ∀ a ∈ acc ++ [txt], GoodStr a := by
      intro a ha
      rcases List.mem_append.mp ha with ha | ha
      · exact hacc a ha
      · rw [List.mem_singleton.mp ha]; exact htxt
    have hjoin : GoodStr (String.join (acc ++ [txt])) :=
      goodStr_join (by simp) htxt
    simp only [mergeLoop] at hseg
    by_cases hs : shouldSplit (acc ++ [txt]) txt = true
    · rw [if_pos hs] at hseg
      cases tl with
      | nil =>
        rw [List.mem_singleton] at hseg
        subst hseg
        exact hjoin
      | cons h2 t2 =>
        obtain ⟨tt, xx⟩ := h2
        rcases List.mem_cons.mp hseg with heq | hmem
        · subst heq; exact hjoin
        · exact ih [] tt (fun tk h => hts tk (List.mem_cons_of_mem _ h))
            (by simp) seg hmem
    · rw [if_neg hs] at hseg
      exact ih (acc ++ [txt]) st (fun tk h => hts tk (List.mem_cons_of_mem _ h))
        hacc' seg hseg

theorem mergeLoop_le (fe : ℚ) :
    ∀ (ts : List (ℚ × String)) (acc : List String) (st : ℚ),
      List.Pairwise (fun a b => a.1 ≤ b.1) ts →
      (∀ p ∈ ts, st ≤ p.1) → st ≤ fe → (∀ p ∈ ts, p.1 ≤ fe) →
      ∀ seg ∈ mergeLoop fe ts acc st, seg.start ≤ seg.«end» := by
  intro ts
  induction ts with
  | nil =>
    intro acc st _ _ hfe _ seg hseg
    cases acc with
    | nil => simp [mergeLoop] at hseg
    | cons a as =>
      simp only [mergeLoop, List.isEmpty_cons, if_neg Bool.false_ne_true,
        List.mem_singleton] at hseg
      subst hseg
      exact hfe
  | cons hd tl ih =>
    intro acc st hpw hst hfe hts seg hseg
    obtain ⟨t, txt⟩ := hd
    simp only [mergeLoop] at hseg
    by_cases hs : shouldSplit (acc ++ [txt]) txt = true
    · rw [if_pos hs] at hseg
      cases tl with
      | nil =>
        rw [List.mem_singleton] at hseg
        subst hseg
        show st ≤ ratAdd t (pyMax 1 (ratMul (txt.length : ℚ) (Rat.divInt 1 5)))
        rw [ratAdd_eq, pyMax_eq]
        have h1 : st ≤ t := hst (t, txt) (List.mem_cons_self _ _)
        have h2 : (0 : ℚ) ≤ max 1 (ratMul (txt.length : ℚ) (Rat.divInt 1 5)) :=
          le_trans zero_le_one (le_max_left _ _)
        calc st ≤ t := h1
          _ ≤ t + max 1 (ratMul (txt.length : ℚ) (Rat.divInt 1 5)) :=
            le_add_of_nonneg_right h2
      | cons h2 t2 =>
        obtain ⟨tt, xx⟩ := h2
        rcases List.mem_cons.mp hseg with heq | hmem
        · subst heq
          exact hst (tt, xx) (List.mem_cons_of_mem _ (List.mem_cons_self _ _))
        · have hpw' := List.Pairwise.of_cons hpw
          refine ih [] tt hpw' ?_ ?_ ?_ seg hmem
          · intro p hp
            rcases List.mem_cons.mp hp with heq | hmem2
            · subst heq; exact le_refl _
            · exact (List.pairwise_cons.mp hpw').1 p hmem2
          · exact hts (tt, xx) (List.mem_cons_of_mem _ (List.mem_cons_self _ _))
          · intro p hp
            exact hts p (List.mem_cons_of_mem _ hp)
    · rw [if_neg hs] at hseg
      refine ih (acc ++ [txt]) st (List.Pairwise.of_cons hpw) ?_ hfe ?_ seg hseg
      · intro p hp
        exact hst p (List.mem_cons_of_mem _ hp)
      · intro p hp
        exact hts p (List.mem_cons_of_mem _ hp)

theorem mergeLoop_head_start (fe : ℚ) :
    ∀ (ts : List (ℚ × String)) (acc : List String) (st : ℚ) (seg : Segment),
      (mergeLoop fe ts acc st).head? = some seg → seg.start = st := by
  intro ts
  induction ts with
  | nil =>
    intro acc st seg hseg
    cases acc with
    | nil => simp [mergeLoop] at hseg
    | cons a as =>
      simp only [mergeLoop, List.isEmpty_cons, if_neg Bool.false_ne_true,
        List.head?_cons, Option.some.injEq] at hseg
      rw [← hseg]
  | cons hd tl ih =>
    intro acc st seg hseg
    obtain ⟨t, txt⟩ := hd
    simp only [mergeLoop] at hseg
    by_cases hs : shouldSplit (acc ++ [txt]) txt = true
    · rw [if_pos hs] at hseg
      cases tl with
      | nil =>
        simp only [List.head?_cons, Option.some.injEq] at hseg
        rw [← hseg]
      | cons h2 t2 =>
        obtain ⟨tt, xx⟩ := h2
        simp only [List.head?_cons, Option.some.injEq] at hseg
        rw [← hseg]
    · rw [if_neg hs] at hseg
      exact ih (acc ++ [txt]) st seg hseg

theorem mergeLoop_chain (fe : ℚ) :
    ∀ (ts : List (ℚ × String)) (acc : List String) (st : ℚ),
      List.Chain' (fun a b => a.«end» = b.start) (mergeLoop fe ts acc st) := by
  intro ts
  induction ts with
  | nil =>
    intro acc st
    cases acc with
    | nil => simp [mergeLoop]
    | cons a as =>
      simp [mergeLoop]
  | cons hd tl ih =>
    intro acc st
    obtain ⟨t, txt⟩ := hd
    simp only [mergeLoop]
    by_cases hs : shouldSplit (acc ++ [txt]) txt = true
    · rw [if_pos hs]
      cases tl with
      | nil => simp
      | cons h2 t2 =>
        obtain ⟨tt, xx⟩ := h2
        rw [List.chain'_cons']
        refine ⟨?_, ih [] tt⟩
        intro b hb
        have := mergeLoop_head_start fe ((tt, xx) :: t2) [] tt b ?_
        · rw [this]
        · cases hx : (mergeLoop fe ((tt, xx) :: t2) [] tt).head? with
          | none => rw [hx] at hb; simp at hb
          | some v => rw [hx] at hb; simp at hb; rw [hb]
    · rw [if_neg hs]
      exact ih (acc ++ [txt]) st

theorem pairwise_fst_le_getLast :
    ∀ (l : List (ℚ × String)) (h : l ≠ []),
      List.Pairwise (fun a b => a.1 ≤ b.1) l →
      ∀ p ∈ l, p.1 ≤ (l.getLast h).1 := by
  intro l
  induction l with
  | nil => intro h; exact absurd rfl h
  | cons hd tl ih =>
    intro h hpw p hp
    cases tl with
    | nil =>
      rw [List.mem_singleton.mp hp]
      exact le_refl _
    | cons h2 t2 =>
      rw [List.getLast_cons (List.cons_ne_nil h2 t2)]
      rcases List.mem_cons.mp hp with heq | hmem
      · subst heq
        have hlast_mem : (h2 :: t2).getLast (List.cons_ne_nil h2 t2) ∈ h2 :: t2 :=
          List.getLast_mem _
        exact (List.pairwise_cons.mp hpw).1 _ hlast_mem
      · exact ih (List.cons_ne_nil h2 t2) (List.Pairwise.of_cons hpw) p hmem

theorem mergeLoop_getLast_end (fe : ℚ) :
    ∀ (ts : List (ℚ × String)) (acc : List String) (st : ℚ) (seg : Segment),
      (mergeLoop fe ts acc st).getLast? = some seg →
      seg.«end» = fe ∨
      ∃ h : ts ≠ [],
        seg.«end» = ratAdd (ts.getLast h).1
          (pyMax 1 (ratMul (((ts.getLast h).2.length : ℚ)) (Rat.divInt 1 5))) := by
  intro ts
  induction ts with
  | nil =>
    intro acc st seg hseg
    rw [mergeLoop_nil] at hseg
    cases acc with
    | nil => simp at hseg
    | cons a as =>
      simp only [List.isEmpty_cons, if_neg Bool.false_ne_true,
        List.getLast?_singleton, Option.some.injEq] at hseg
      left
      rw [← hseg]
  | cons hd tl ih =>
    intro acc st seg hseg
    obtain ⟨t, txt⟩ := hd
    by_cases hs : shouldSplit (acc ++ [txt]) txt = true
    · cases tl with
      | nil =>
        rw [mergeLoop_split_last fe t st txt acc hs,
          List.getLast?_singleton, Option.some.injEq] at hseg
        right
        refine ⟨List.cons_ne_nil _ _, ?_⟩
        rw [← hseg]
        simp
      | cons h2 t2 =>
        obtain ⟨tt, xx⟩ := h2
        rw [mergeLoop_split_mid fe t tt st txt xx t2 acc hs] at hseg
        have hne : mergeLoop fe ((tt, xx) :: t2) [] tt ≠ [] :=
          mergeLoop_ne_nil fe _ _ _ (Or.inl (List.cons_ne_nil _ _))
        cases hout : mergeLoop fe ((tt, xx) :: t2) [] tt with
        | nil => exact absurd hout hne
        | cons o os =>
          rw [hout, List.getLast?_cons_cons] at hseg
          have := ih [] tt seg (by rw [hout]; exact hseg)
          rcases this with h | ⟨h', heq⟩
          · exact Or.inl h
          · right
            refine ⟨List.cons_ne_nil _ _, ?_⟩
            rw [List.getLast_cons h']
            exact heq
    · rw [mergeLoop_nosplit fe t st txt tl acc (Bool.not_eq_true _ ▸ hs)] at hseg
      have := ih (acc ++ [txt]) st seg hseg
      rcases this with h | ⟨h', heq⟩
      · exact Or.inl h
      · right
        refine ⟨List.cons_ne_nil _ _, ?_⟩
        rw [List.getLast_cons h']
        exact heq

theorem msToSec_le_msToSec {a b : ℚ} (h : a ≤ b) :
    msToSec a ≤ msToSec b := by
  rw [msToSec_eq, msToSec_eq]
  gcongr

set_option maxRecDepth 4000 in
set_option maxHeartbeats 1600000 in
theorem paraGroup_inv :
    ∀ (ps : List (Char × ℚ × ℚ)) (acc : List Char) (cs ce : Option ℚ),
      (∀ x ∈ ps, x.2.1 ≤ x.2.2) →
      List.Pairwise (fun a b => a.2.1 ≤ b.2.1) ps →
      (∀ x ∈ ps, isPySpace x.1 = false) →
      (∀ c ∈ acc, isPySpace c = false) →
      (∀ v, cs = some v →
        (∀ x ∈ ps, v ≤ msToSec x.2.1) ∧ ∀ w, ce = some w → v ≤ w) →
      (acc ≠ [] → ∃ v w, cs = some v ∧ ce = some w ∧ v ≤ w) →
      ∀ seg ∈ paraGroup ps acc cs ce,
        seg.start ≤ seg.«end» ∧ GoodStr seg.text := by
  intro ps
  induction ps with
  | nil =>
    intro acc cs ce _ _ _ hacc _ hflush seg hseg
    cases acc with
    | nil => simp [paraGroup] at hseg
    | cons a as =>
      simp only [paraGroup, List.isEmpty_cons, if_neg Bool.false_ne_true,
        List.mem_singleton] at hseg
      subst hseg
      obtain ⟨v, w, hv, hw, hvw⟩ := hflush (List.cons_ne_nil a as)
      refine ⟨by simp [hv, hw, hvw], ?_⟩
      exact ⟨a, List.mem_cons_self a as, hacc a (List.mem_cons_self a as)⟩
  | cons hd tl ih =>
    intro acc cs ce hle hpw hsp hacc hcs hflush seg hseg
    obtain ⟨word, sms, ems⟩ := hd
    have hword : isPySpace word = false :=
      hsp (word, sms, ems) (List.mem_cons_self _ _)
    have hsmse : sms ≤ ems := hle (word, sms, ems) (List.mem_cons_self _ _)
    have hle' : ∀ x ∈ tl, x.2.1 ≤ x.2.2 :=
      fun x hx => hle x (List.mem_cons_of_mem _ hx)
    have hsp' : ∀ x ∈ tl, isPySpace x.1 = false :=
      fun x hx => hsp x (List.mem_cons_of_mem _ hx)
    have hpw' := List.Pairwise.of_cons hpw
    have hacc' : ∀ c ∈ acc ++ [word], isPySpace c = false := by
      intro c hc
      rcases List.mem_append.mp hc with hc | hc
      · exact hacc c hc
      · rw [List.mem_singleton.mp hc]; exact hword
    -- `v` is the value carried as the group's start after this step
    obtain ⟨v, hvcs, hvsms, hvtl⟩ :
        ∃ v, (match cs with
            | none => some (msToSec sms)
            | some v0 => some v0) = some v ∧
          v ≤ msToSec sms ∧ ∀ x ∈ tl, v ≤ msToSec x.2.1 := by
      cases cs with
      | none =>
        refine ⟨msToSec sms, rfl, le_refl _, ?_⟩
        intro x hx
        exact msToSec_le_msToSec ((List.pairwise_cons.mp hpw).1 x hx)
      | some v0 =>
        obtain ⟨h1, _⟩ := hcs v0 rfl
        refine ⟨v0, rfl, h1 (word, sms, ems) (List.mem_cons_self _ _), ?_⟩
        intro x hx
        exact h1 x (List.mem_cons_of_mem _ hx)
    simp only [paraGroup, hvcs] at hseg
    by_cases hif : (reSearchSentenceEnd [word] ||
        decide (60 < (acc ++ [word]).length)) = true
    · rw [if_pos hif] at hseg
      rcases List.mem_cons.mp hseg with heq | hmem
      · subst heq
        refine ⟨?_, ⟨word, by simp, hword⟩⟩
        simp only [Option.getD_some]
        exact le_trans hvsms (msToSec_le_msToSec hsmse)
      · refine ih [] none none hle' hpw' hsp' (by intro c hc; simp at hc)
          (by intro w hw; simp at hw) (fun h => absurd rfl h) seg hmem
    · rw [if_neg hif] at hseg
      refine ih (acc ++ [word]) (some v) (some (msToSec ems)) hle' hpw' hsp'
        hacc' ?_ ?_ seg hseg
      · intro w hw
        rw [Option.some.injEq] at hw
        subst hw
        refine ⟨hvtl, ?_⟩
        intro w hw
        rw [Option.some.injEq] at hw
        subst hw
        exact le_trans hvsms (msToSec_le_msToSec hsmse)
      · intro _
        exact ⟨v, msToSec ems, rfl, rfl,
          le_trans hvsms (msToSec_le_msToSec hsmse)⟩

theorem mergeTokens_good (ts : List (ℚ × String)) (h : ∀ tk ∈ ts, GoodStr tk.2) :
    ∀ seg ∈ mergeTokens ts, GoodStr seg.text := by
  cases ts with
  | nil => intro seg hseg; simp [mergeTokens] at hseg
  | cons tok rest =>
    intro seg hseg
    simp only [mergeTokens] at hseg
    exact mergeLoop_good _ _ _ _ h (by intro a ha; simp at ha) seg hseg

theorem mergeTokens_le (ts : List (ℚ × String))
    (h : List.Pairwise (fun a b => a.1 ≤ b.1) ts) :
    ∀ seg ∈ mergeTokens ts, seg.start ≤ seg.«end» := by
  cases ts with
  | nil => intro seg hseg; simp [mergeTokens] at hseg
  | cons tok rest =>
    intro seg hseg
    simp only [mergeTokens] at hseg
    have hhead : ∀ p ∈ tok :: rest, tok.1 ≤ p.1 := by
      intro p hp
      rcases List.mem_cons.mp hp with heq | hmem
      · subst heq; exact le_refl _
      · exact (List.pairwise_cons.mp h).1 p hmem
    have hlast : ∀ p ∈ tok :: rest,
        p.1 ≤ ((tok :: rest).getLast (List.cons_ne_nil tok rest)).1 :=
      pairwise_fst_le_getLast (tok :: rest) (List.cons_ne_nil tok rest) h
    have hfe : ∀ p ∈ tok :: rest,
        p.1 ≤ ratAdd ((tok :: rest).getLast (List.cons_ne_nil tok rest)).1 1 := by
      intro p hp
      rw [ratAdd_eq]
      exact le_trans (hlast p hp) (le_add_of_nonneg_right zero_le_one)
    exact mergeLoop_le _ _ _ _ h hhead
      (hfe tok (List.mem_cons_self tok rest)) hfe seg hseg

theorem mergeTokens_chain (ts : List (ℚ × String)) :
    List.Chain' (fun a b => a.«end» = b.start) (mergeTokens ts) := by
  cases ts with
  | nil => simp [mergeTokens]
  | cons tok rest =>
    simp only [mergeTokens]
    exact mergeLoop_chain _ _ _ _

/-- The Segment invariant for the SenseVoice builder: trimmed text is
never empty, and when the parsed token timestamps are non-decreasing every
segment satisfies `start ≤ end`. -/
theorem parse_sensevoice_invariants (text : String) :
    ∀ seg ∈ parse_sensevoice_output text,
      pyStripStr seg.text ≠ "" ∧
      (List.Pairwise (fun a b => a.1 ≤ b.1) (senseTokens text) →
        seg.start ≤ seg.«end») := by
  intro seg hseg
  constructor
  · exact goodStr_pyStrip_ne
      (mergeTokens_good (senseTokens text) (senseTokens_good text) seg hseg)
  · intro hpw
    exact mergeTokens_le (senseTokens text) hpw seg hseg

/-- The Segment invariant for the Paraformer builder, under well-formed
input: sentence spans are ordered with non-blank text, the whole text has
no whitespace characters, and the per-character timestamp pairs are
ordered and sorted. -/
theorem parse_paraformer_invariants (item : ParaformerResult)
    (hsent : ∀ s ∈ item.sentence_info,
      s.start ≤ s.«end» ∧ pyStripStr s.text ≠ "")
    (htext : ∀ c ∈ item.text.data, isPySpace c = false)
    (hts : ∀ p ∈ item.timestamp, p.1 ≤ p.2)
    (hsorted : List.Pairwise (fun a b => a.1 ≤ b.1) item.timestamp) :
    ∀ seg ∈ parse_paraformer_output item,
      seg.start ≤ seg.«end» ∧ pyStripStr seg.text ≠ "" := by
  intro seg hseg
  have hgood_text : item.text ≠ "" → GoodStr item.text := by
    intro hne
    have hdata : item.text.data ≠ [] := by
      intro hd
      exact hne (String.ext (by rw [hd]))
    cases hd : item.text.data with
    | nil => exact absurd hd hdata
    | cons c cstail =>
      refine ⟨c, by rw [hd]; exact List.mem_cons_self c cstail, ?_⟩
      exact htext c (by rw [hd]; exact List.mem_cons_self c cstail)
  rw [parse_paraformer_output] at hseg
  by_cases hsents : item.sentence_info.isEmpty
  · rw [if_neg (by simp [hsents])] at hseg
    by_cases hmain : ¬ item.timestamp.isEmpty ∧ item.text ≠ ""
    · rw [if_pos hmain] at hseg
      by_cases hlen : item.timestamp.length = item.text.data.length
      · rw [if_pos hlen] at hseg
        have hz1 : ∀ x ∈ item.text.data.zip item.timestamp, x.2.1 ≤ x.2.2 :=
          fun x hx => hts x.2 (List.of_mem_zip hx).2
        have hz2 : List.Pairwise (fun a b => a.2.1 ≤ b.2.1)
            (item.text.data.zip item.timestamp) := by
          have hmap : (item.text.data.zip item.timestamp).map Prod.snd =
              item.timestamp :=
            List.map_snd_zip _ _ (by omega)
          have hp := hmap ▸ hsorted
          exact (List.pairwise_map.mp hp).imp (fun hab => hab)
        have hz3 : ∀ x ∈ item.text.data.zip item.timestamp,
            isPySpace x.1 = false :=
          fun x hx => htext x.1 (List.of_mem_zip hx).1
        obtain ⟨ha, hb⟩ := paraGroup_inv (item.text.data.zip item.timestamp)
          [] none none hz1 hz2 hz3 (by intro c hc; simp at hc)
          (by intro v hv; simp at hv) (fun hne => absurd rfl hne) seg hseg
        exact ⟨ha, goodStr_pyStrip_ne hb⟩
      · rw [if_neg hlen, List.mem_singleton] at hseg
        subst hseg
        exact ⟨le_refl _, goodStr_pyStrip_ne (hgood_text hmain.2)⟩
    · rw [if_neg hmain] at hseg
      by_cases htne : item.text ≠ ""
      · rw [if_pos htne, List.mem_singleton] at hseg
        subst hseg
        exact ⟨le_refl _, goodStr_pyStrip_ne (hgood_text htne)⟩
      · rw [if_neg htne] at hseg
        simp at hseg
  · rw [if_pos (by simp [hsents])] at hseg
    rcases List.mem_filterMap.mp hseg with ⟨sent, hsmem, hsome⟩
    by_cases hst : sent.text ≠ ""
    · rw [if_pos hst, Option.some.injEq] at hsome
      subst hsome
      obtain ⟨h1, h2⟩ := hsent sent hsmem
      exact ⟨msToSec_le_msToSec h1, h2⟩
    · rw [if_neg hst] at hsome
      exact absurd hsome (by simp)

end V2T

namespace V2T

theorem divInt_one_five : Rat.divInt 1 5 = (1 / 5 : ℚ) := by
  rw [Rat.divInt_eq_div]
  norm_num

/-!
Claim theorems.
-/

/-- C1 counterexample: on the tagged input `"<|5.0|>Hi.<|1.0|>x"`, whose
timestamps decrease, the SenseVoice builder emits the segment
`(5.0, 1.0, "Hi.")` with `start > end`, so the invariant does not hold for
arbitrary input text. -/
theorem c1_counterexample :
    ¬ (∀ seg ∈ parse_sensevoice_output "<|5.0|>Hi.<|1.0|>x",
        pyStripStr seg.text ≠ "" ∧ seg.start ≤ seg.«end») := by
  decide

/-- C1 (amended): every Segment produced by the SenseVoice builder has
non-blank text, and satisfies `start ≤ end` whenever the parsed token
timestamps are non-decreasing; every Segment produced by the Paraformer
builder satisfies both invariants whenever the result dictionary is
well-formed (each sentence span ordered with non-blank text, the text free
of whitespace characters, each timestamp pair ordered, timestamp starts
non-decreasing). -/
theorem c1_segment_invariants :
    (∀ text : String, ∀ seg ∈ parse_sensevoice_output text,
      pyStripStr seg.text ≠ "" ∧
      (List.Pairwise (fun a b => a.1 ≤ b.1) (senseTokens text) →
        seg.start ≤ seg.«end»)) ∧
    (∀ item : ParaformerResult,
      (∀ s ∈ item.sentence_info, s.start ≤ s.«end» ∧ pyStripStr s.text ≠ "") →
      (∀ c ∈ item.text.data, isPySpace c = false) →
      (∀ p ∈ item.timestamp, p.1 ≤ p.2) →
      List.Pairwise (fun a b => a.1 ≤ b.1) item.timestamp →
      ∀ seg ∈ parse_paraformer_output item,
        seg.start ≤ seg.«end» ∧ pyStripStr seg.text ≠ "") :=
  ⟨parse_sensevoice_invariants, parse_paraformer_invariants⟩

/-- C1 witness: the invariants evaluated on concrete inputs for both
builders. -/
theorem c1_witness :
    (pyStripStr (Segment.mk 1 2 "hi.").text ≠ "" ∧
      (Segment.mk 1 2 "hi.").start ≤ (Segment.mk 1 2 "hi.").«end») ∧
    ((Segment.mk 0 (mkRat 3 10) "ab").start ≤
        (Segment.mk 0 (mkRat 3 10) "ab").«end» ∧
      pyStripStr (Segment.mk 0 (mkRat 3 10) "ab").text ≠ "") := by
  constructor
  · have h := c1_segment_invariants.1 "<|1.0|>hi." ⟨1, 2, "hi."⟩ (by decide)
    exact ⟨h.1, h.2 (by decide)⟩
  · exact c1_segment_invariants.2 ⟨"ab", [(0, 100), (100, 300)], []⟩
      (by intro s hs; simp at hs) (by decide) (by decide) (by decide)
      ⟨0, mkRat 3 10, "ab"⟩ (by decide)

/-- C2 counterexample: on `"<|0.00|>Hello<|1.50|> world<|3.00|>."` the
single produced segment's text is `"Helloworld."`, not `"Hello world."`:
each token is stripped and the tokens are joined without separator, so
the inter-word space is not preserved. -/
theorem c2_counterexample :
    (parse_sensevoice_output "<|0.00|>Hello<|1.50|> world<|3.00|>.").map
      Segment.text ≠ ["Hello world."] := by
  decide

/-- C2 (amended): parsing `"<|0.00|>Hello<|1.50|> world<|3.00|>."` yields
the raw tokens `[(0.00, "Hello"), (1.50, "world"), (3.00, ".")]` and
exactly one Segment with start `0.0`, end `3.0 + max(1.0, 0.2·len("."))
= 4.0`, and text `"Helloworld."` (the space between the words is lost by
the strip-and-join). -/
theorem c2_parse_example :
    senseTokens "<|0.00|>Hello<|1.50|> world<|3.00|>." =
      [(0, "Hello"), (mkRat 3 2, "world"), (3, ".")] ∧
    parse_sensevoice_output "<|0.00|>Hello<|1.50|> world<|3.00|>." =
      [⟨0, 4, "Helloworld."⟩] := by
  decide

/-- C3: with no sentence spans, non-empty text and a non-empty timestamp
array whose length differs from the character count of the text, the
Paraformer builder returns exactly one zero-duration Segment holding the
whole text. -/
theorem c3_mismatch_fallback (item : ParaformerResult)
    (h1 : item.sentence_info = [])
    (h2 : item.timestamp ≠ [])
    (h3 : item.text ≠ "")
    (h4 : item.timestamp.length ≠ item.text.length) :
    parse_paraformer_output item = [⟨0, 0, item.text⟩] := by
  have hlen : item.timestamp.length ≠ item.text.data.length := h4
  rw [parse_paraformer_output]
  rw [if_neg (by simp [h1])]
  rw [if_pos ⟨by simp [List.isEmpty_iff, h2], h3⟩]
  rw [if_neg hlen]

/-- C3 witness: the fallback on a concrete mismatched result. -/
theorem c3_witness :
    parse_paraformer_output ⟨"ab", [(0, 100)], []⟩ = [⟨0, 0, "ab"⟩] :=
  c3_mismatch_fallback ⟨"ab", [(0, 100)], []⟩ rfl (by decide) (by decide)
    (by decide)

/-- C4: end-time assignment in the tag-stream Segment Builder. (1) When
the split decision fires and a next token exists, the finished segment's
end time is the next token's start time. (2) When the split fires on the
final token, the end time is the final token's start `t` plus
`max(1.0, 0.2 · len(txt))` computed from the final token's text. (3) A
non-empty trailing candidate is flushed with the loop's flush end time,
which (4) the top level fixes as the last token's time plus the 1.0-second
pad, so (5) the last segment of any merge carries either the synthesized
end time or the last token's time plus 1.0. -/
theorem c4_end_time_rules :
    (∀ (fe t t2 st : ℚ) (txt x2 : String) (rest : List (ℚ × String))
        (acc : List String),
      shouldSplit (acc ++ [txt]) txt = true →
      mergeLoop fe ((t, txt) :: (t2, x2) :: rest) acc st =
        ⟨st, t2, String.join (acc ++ [txt])⟩ ::
          mergeLoop fe ((t2, x2) :: rest) [] t2) ∧
    (∀ (fe t st : ℚ) (txt : String) (acc : List String),
      shouldSplit (acc ++ [txt]) txt = true →
      mergeLoop fe [(t, txt)] acc st =
        [⟨st, t + max 1 ((txt.length : ℚ) * (1 / 5)),
          String.join (acc ++ [txt])⟩]) ∧
    (∀ (fe st : ℚ) (acc : List String), acc ≠ [] →
      mergeLoop fe [] acc st = [⟨st, fe, String.join acc⟩]) ∧
    (∀ (ts : List (ℚ × String)) (h : ts ≠ []),
      mergeTokens ts =
        mergeLoop ((ts.getLast h).1 + 1) ts [] (ts.head h).1) ∧
    (∀ (ts : List (ℚ × String)) (h : ts ≠ []) (seg : Segment),
      (mergeTokens ts).getLast? = some seg →
      seg.«end» =
          (ts.getLast h).1 + max 1 (((ts.getLast h).2.length : ℚ) * (1 / 5)) ∨
      seg.«end» = (ts.getLast h).1 + 1) := by
  refine ⟨?_, ?_, ?_, ?_, ?_⟩
  · intro fe t t2 st txt x2 rest acc h
    exact mergeLoop_split_mid fe t t2 st txt x2 rest acc h
  · intro fe t st txt acc h
    rw [mergeLoop_split_last fe t st txt acc h]
    rw [ratAdd_eq, pyMax_eq, ratMul_eq, divInt_one_five]
  · intro fe st acc hacc
    rw [mergeLoop_nil]
    rw [if_neg (by simp [List.isEmpty_iff, hacc])]
  · intro ts h
    cases ts with
    | nil => exact absurd rfl h
    | cons tok rest =>
      simp only [mergeTokens, List.head_cons]
      rw [ratAdd_eq]
  · intro ts h seg hseg
    cases ts with
    | nil => exact absurd rfl h
    | cons tok rest =>
      simp only [mergeTokens] at hseg
      rcases mergeLoop_getLast_end _ _ _ _ seg hseg with hfe | ⟨h', heq⟩
      · right
        rw [hfe, ratAdd_eq]
      · left
        rw [heq, ratAdd_eq, pyMax_eq, ratMul_eq, divInt_one_five]

/-- C4 witness: the three end-time rules on concrete inputs. -/
theorem c4_witness :
    (mergeLoop 0 [(0, "a."), (1, "b")] [] 0 =
      ⟨0, 1, String.join ([] ++ ["a."])⟩ :: mergeLoop 0 [(1, "b")] [] 1) ∧
    (mergeLoop 7 [(3, ".")] ["Hello", "world"] 0 =
      [⟨0, 3 + max 1 ((("." : String).length : ℚ) * (1 / 5)),
        String.join (["Hello", "world"] ++ ["."])⟩]) ∧
    (mergeLoop 9 [] ["tail"] 2 = [⟨2, 9, String.join ["tail"]⟩]) ∧
    (mergeTokens [((3 : ℚ), "x")] = mergeLoop ((3 : ℚ) + 1) [(3, "x")] [] 3) ∧
    ((Segment.mk 3 4 "x").«end» =
        (3 : ℚ) + max 1 ((("x" : String).length : ℚ) * (1 / 5)) ∨
      (Segment.mk 3 4 "x").«end» = (3 : ℚ) + 1) :=
  ⟨c4_end_time_rules.1 0 0 1 0 "a." "b" [] [] (by decide),
   c4_end_time_rules.2.1 7 3 0 "." ["Hello", "world"] (by decide),
   c4_end_time_rules.2.2.1 9 2 ["tail"] (by decide),
   c4_end_time_rules.2.2.2.1 [(3, "x")] (by decide),
   c4_end_time_rules.2.2.2.2 [(3, "x")] (by decide) ⟨3, 4, "x"⟩ (by decide)⟩

/-- C5 counterexample: the Whisper engine does not return an empty
segment sequence when the backend call fails; the exception propagates. -/
theorem c5_counterexample :
    whisperTranscribe (Except.error "backend failure") ≠ Except.ok [] := by
  intro h
  simp [whisperTranscribe, Except.map] at h

/-- C5 (amended): only the FunASR engine converts a backend inference
exception into an empty Segment sequence (so the batch loop continues);
the Whisper engine has no handler and the exception propagates to the
caller, aborting the batch. -/
theorem c5_engine_error_handling :
    (∀ (is_paraformer : Bool) (e : String),
      funasrTranscribe is_paraformer (Except.error e) = []) ∧
    (∀ e : String,
      whisperTranscribe (Except.error e) = Except.error e) :=
  ⟨fun _ _ => rfl, fun _ => rfl⟩

/-- C6 counterexample: a downloaded file that is already an `.mp3` is
returned unchanged by `_extract_audio_ffmpeg` without invoking ffmpeg, so
the normalization step is not applied to every downloaded file. -/
theorem c6_counterexample :
    (extract_audio_ffmpeg ⟨"temp_audio", "song", ".mp3"⟩
        (FFmpegRun.exits 0 true)).invokedCmd = none ∧
    (extract_audio_ffmpeg ⟨"temp_audio", "song", ".mp3"⟩
        (FFmpegRun.exits 0 true)).result =
      some ⟨"temp_audio", "song", ".mp3"⟩ := by
  decide

/-- C6 (amended): the downloader output is always handed to
`_extract_audio_ffmpeg`, which invokes the ffmpeg command that strips
video, forces mono, resamples to 16 kHz and encodes to mp3 for every
downloaded file except one whose path already carries the `.mp3` suffix;
such a file is returned as-is without transcoding. -/
theorem c6_normalization (p : PyPath) (run : FFmpegRun) :
    (extract_audio_ffmpeg p run).invokedCmd =
      if p.suffix = ".mp3" then none
      else some (ffmpegAudioCmd p.toStr (p.withSuffix ".mp3").toStr) := by
  obtain ⟨d, stm, sf⟩ := p
  by_cases hs : sf = ".mp3"
  · subst hs
    rw [if_pos rfl]
    have h1 : pyLower (PyPath.mk d stm ".mp3").suffix = ".mp3" :=
      show pyLower ".mp3" = ".mp3" by decide
    have h2 : PyPath.mk d stm ".mp3" =
        (PyPath.mk d stm ".mp3").withSuffix ".mp3" := rfl
    rw [extract_audio_ffmpeg, if_pos ⟨h1, h2⟩]
  · rw [if_neg hs]
    have hcond : ¬ (pyLower (PyPath.mk d stm sf).suffix = ".mp3" ∧
        PyPath.mk d stm sf = (PyPath.mk d stm sf).withSuffix ".mp3") := by
      rintro ⟨-, h2⟩
      rw [PyPath.withSuffix, PyPath.mk.injEq] at h2
      exact hs h2.2.2
    rw [extract_audio_ffmpeg, if_neg hcond]
    cases run with
    | raises => rfl
    | exits rc outputExists =>
      by_cases hrc : rc ≠ 0
      · simp only [if_pos hrc]
      · simp only [if_neg hrc]
        by_cases ho : outputExists = true
        · simp only [if_pos ho]
        · simp only [if_neg ho]

/-- C7: the format string submitted to the downloader encodes, in order,
(1) best pure-audio, (2) worst video muxed with best audio, (3) absolute
worst, and under the downloader's first-playable-wins fallback a source
without a standalone audio stream gets `worstvideo*+bestaudio`, never
`worst`, when that alternative is playable. -/
theorem c7_format_fallback_chain :
    formatAlternatives = ["bestaudio", "worstvideo*+bestaudio", "worst"] ∧
    (∀ playable : String → Bool,
      playable "bestaudio" = false →
      playable "worstvideo*+bestaudio" = true →
      selectFormat playable = some "worstvideo*+bestaudio") ∧
    (∀ playable : String → Bool,
      playable "bestaudio" = true →
      selectFormat playable = some "bestaudio") := by
  have halt : formatAlternatives = ["bestaudio", "worstvideo*+bestaudio", "worst"] := by
    decide
  refine ⟨halt, ?_, ?_⟩
  · intro playable h1 h2
    rw [selectFormat, halt]
    simp [List.find?, h1, h2]
  · intro playable h1
    rw [selectFormat, halt]
    simp [List.find?, h1]

/-- C7 witness: a source offering only muxed formats selects
`worstvideo*+bestaudio`, and a source offering `bestaudio` selects it. -/
theorem c7_witness :
    selectFormat (fun s => s == "worst" || s == "worstvideo*+bestaudio") =
      some "worstvideo*+bestaudio" ∧
    selectFormat (fun _ => true) = some "bestaudio" :=
  ⟨c7_format_fallback_chain.2.1 _ (by decide) (by decide),
   c7_format_fallback_chain.2.2 _ (by decide)⟩

/-- C8: with `keep_audio = false`, the cleanup after transcribing a local
input never removes the caller's source file, and anything it removes is
the temporary `temp_audio/{stem}_extracted.mp3` created for a local video
input; a local audio input (used directly) triggers no removal at all. -/
theorem c8_cleanup_preserves_source (source : PyPath) (run : FFmpegRun) :
    source ∉ localCleanupTargets source false run ∧
    ∀ p ∈ localCleanupTargets source false run,
      p = ⟨temp_dir, source.stem ++ "_extracted", ".mp3"⟩ := by
  obtain ⟨d, stm, sf⟩ := source
  have hdisj : ∀ s ∈ [".mp3", ".wav", ".flac", ".m4a"],
      s ∉ SUPPORTED_VIDEO_FORMATS := by decide
  by_cases ha : pyLower sf ∈ [".mp3", ".wav", ".flac", ".m4a"]
  · have hkey : localCleanupTargets ⟨d, stm, sf⟩ false run = [] := by
      rw [localCleanupTargets, process_local_file, if_pos ha]
      simp [hdisj _ ha]
    rw [hkey]
    exact ⟨by simp, by simp⟩
  · by_cases hb : pyLower sf ∈ SUPPORTED_VIDEO_FORMATS
    · have hsf : sf ≠ ".mp3" := by
        intro h
        rw [h] at ha
        exact ha (by decide)
      have hkey : localCleanupTargets ⟨d, stm, sf⟩ false run = [] ∨
          localCleanupTargets ⟨d, stm, sf⟩ false run =
            [⟨temp_dir, stm ++ "_extracted", ".mp3"⟩] := by
        cases run with
        | raises =>
          left
          simp [localCleanupTargets, process_local_file, ha, hb]
        | exits rc outputExists =>
          by_cases hrc : rc = 0
          · cases outputExists with
            | true =>
              right
              simp [localCleanupTargets, process_local_file, ha, hb, hrc]
            | false =>
              left
              simp [localCleanupTargets, process_local_file, ha, hb, hrc]
          · left
            simp [localCleanupTargets, process_local_file, ha, hb, hrc]
      rcases hkey with hkey | hkey <;> rw [hkey]
      · exact ⟨by simp, by simp⟩
      · constructor
        · intro hmem
          rw [List.mem_singleton, PyPath.mk.injEq] at hmem
          exact hsf hmem.2.2
        · intro p hp
          exact List.mem_singleton.mp hp
    · have hkey : localCleanupTargets ⟨d, stm, sf⟩ false run = [] := by
        rw [localCleanupTargets, process_local_file, if_neg ha, if_neg hb]
      rw [hkey]
      exact ⟨by simp, by simp⟩

/-- C8 witness: transcoding a local video input removes exactly the
temporary extracted audio file, which differs from the source path. -/
theorem c8_witness :
    (⟨"temp_audio", "movie_extracted", ".mp3"⟩ : PyPath) =
      ⟨temp_dir, "movie" ++ "_extracted", ".mp3"⟩ ∧
    (⟨"/videos", "movie", ".mp4"⟩ : PyPath) ∉
      localCleanupTargets ⟨"/videos", "movie", ".mp4"⟩ false
        (FFmpegRun.exits 0 true) :=
  ⟨(c8_cleanup_preserves_source ⟨"/videos", "movie", ".mp4"⟩
      (FFmpegRun.exits 0 true)).2
      ⟨"temp_audio", "movie_extracted", ".mp3"⟩ (by decide),
   (c8_cleanup_preserves_source ⟨"/videos", "movie", ".mp4"⟩
      (FFmpegRun.exits 0 true)).1⟩

/-- C9: the tag-stream parser and Segment Builder are deterministic: two
invocations on identical input text produce identical Segment lists.  The
embedding is a pure function of the input text: the Python code reads no
state other than its argument. -/
theorem c9_deterministic (s₁ s₂ : String) (h : s₁ = s₂) :
    parse_sensevoice_output s₁ = parse_sensevoice_output s₂ :=
  congrArg parse_sensevoice_output h

/-- C9 witness: two runs on the same concrete input coincide. -/
theorem c9_witness :
    parse_sensevoice_output "<|0.5|>ok" = parse_sensevoice_output "<|0.5|>ok" :=
  c9_deterministic "<|0.5|>ok" "<|0.5|>ok" rfl

/-- C10: in the SenseVoice builder every pair of consecutive output
segments is contiguous: the earlier segment's end time equals the later
segment's start time.  This holds for all consecutive pairs, including
the final flushed segment, which is stronger than the claim (the claim
allows the flushed segment to break the chain). -/
theorem c10_segment_contiguity (text : String) :
    List.Chain' (fun a b => a.«end» = b.start)
      (parse_sensevoice_output text) :=
  mergeTokens_chain (senseTokens text)

end V2T
